import Mathlib

/-!
Verification of the NeuroHarmony scoring-and-recommendation pipeline.

Shallow embedding of the algorithmic core of the repository:
- `caregiver.py`: per-row cognitive scorers (`calculate_engagement_score`,
  `calculate_focus_score`, `calculate_relaxation_score`), per-band column
  aggregation and per-column 0-10 normalization (`process_eeg_scores`),
  the prediction runner (`run_predictions_on_uploaded_data`) and its
  recommendation aggregation (grouping of per-row top labels weighted by
  top probabilities).
- `general_user.py`: `get_recommended_playlist_for_user` (proportional
  allocation of a bounded playlist across ranked categories).

Numbers are modelled by exact rationals; where IEEE-754 special values
(infinity, NaN) are semantically relevant (the focus score and the
normalizer) an explicit extended type `EF` is used whose operations follow
the IEEE rules for the operations that occur in the source. Rounding error
of finite floats is not modelled: none of the verified statements depends
on it.
-/

set_option maxHeartbeats 1000000

namespace NeuroHarmony

/-! ## Row model

A pandas row accessed only through `row.get(col, 0)`: a partial map from
column names to rational values; `rget` is `row.get` with default `0`. -/

def Row : Type := String → Option ℚ

def rget (r : Row) (c : String) : ℚ := (r c).getD 0

/-! ## Cognitive scorers (`caregiver.py` lines 63-121)

Each scorer recomputes the four-electrode band means inline in the source;
the helper definitions below are those shared expressions. -/

def betaMean (r : Row) : ℚ :=
  (rget r "Beta_TP9_mean" + rget r "Beta_AF7_mean" +
   rget r "Beta_AF8_mean" + rget r "Beta_TP10_mean") / 4

def gammaMean (r : Row) : ℚ :=
  (rget r "Gamma_TP9_mean" + rget r "Gamma_AF7_mean" +
   rget r "Gamma_AF8_mean" + rget r "Gamma_TP10_mean") / 4

def alphaMean (r : Row) : ℚ :=
  (rget r "Alpha_TP9_mean" + rget r "Alpha_AF7_mean" +
   rget r "Alpha_AF8_mean" + rget r "Alpha_TP10_mean") / 4

def thetaMean (r : Row) : ℚ :=
  (rget r "Theta_TP9_mean" + rget r "Theta_AF7_mean" +
   rget r "Theta_AF8_mean" + rget r "Theta_TP10_mean") / 4

/-- `calculate_engagement_score`: Mean(Beta+Gamma) - Mean(Alpha+Theta). -/
def calculate_engagement_score (r : Row) : ℚ :=
  (betaMean r + gammaMean r) / 2 - (alphaMean r + thetaMean r) / 2

/-- `calculate_relaxation_score`: Mean(Alpha+Theta) - Mean(Beta+Gamma). -/
def calculate_relaxation_score (r : Row) : ℚ :=
  (alphaMean r + thetaMean r) / 2 - (betaMean r + gammaMean r) / 2

/-! ## Extended float values

`EF` carries the IEEE-754 special values that the source manipulates:
`float('inf')` from `calculate_focus_score` and the NaN/infinity
propagation inside the normalizer. Operations below implement the IEEE
rules for exactly the operations appearing in `process_eeg_scores`. -/

inductive EF : Type where
  | nan : EF
  | inf : EF
  | ninf : EF
  | fin : ℚ → EF
deriving DecidableEq

/-- IEEE subtraction on extended values (exact on finite operands). -/
def efSub : EF → EF → EF
  | .nan, _ => .nan
  | _, .nan => .nan
  | .inf, .inf => .nan
  | .inf, _ => .inf
  | .ninf, .ninf => .nan
  | .ninf, _ => .ninf
  | .fin _, .inf => .ninf
  | .fin _, .ninf => .inf
  | .fin a, .fin b => .fin (a - b)

/-- Multiplication by the positive constant 10. -/
def efMul10 : EF → EF
  | .nan => .nan
  | .inf => .inf
  | .ninf => .ninf
  | .fin q => .fin (10 * q)

/-- IEEE division (numpy semantics for division by zero). -/
def efDiv : EF → EF → EF
  | .nan, _ => .nan
  | _, .nan => .nan
  | .inf, .inf => .nan
  | .inf, .ninf => .nan
  | .ninf, .inf => .nan
  | .ninf, .ninf => .nan
  | .inf, .fin b => if b < 0 then .ninf else .inf
  | .ninf, .fin b => if b < 0 then .inf else .ninf
  | .fin _, .inf => .fin 0
  | .fin _, .ninf => .fin 0
  | .fin a, .fin b =>
      if b = 0 then (if a = 0 then .nan else if a < 0 then .ninf else .inf)
      else .fin (a / b)

/-- `pd.isna`. -/
def isna : EF → Bool
  | .nan => true
  | _ => false

/-- IEEE equality test (`==` on floats): NaN compares unequal to everything. -/
def efEq : EF → EF → Bool
  | .nan, _ => false
  | _, .nan => false
  | .inf, .inf => true
  | .ninf, .ninf => true
  | .fin a, .fin b => a = b
  | _, _ => false

/-- Order test used by min/max folds (only applied to non-NaN values). -/
def efLe : EF → EF → Bool
  | .nan, _ => false
  | _, .nan => false
  | .ninf, _ => true
  | _, .inf => true
  | .inf, _ => false
  | _, .ninf => false
  | .fin a, .fin b => a ≤ b

def efMin (a b : EF) : EF := if efLe a b then a else b

def efMax (a b : EF) : EF := if efLe a b then b else a

/-- `Series.min()`: skip NaN entries; NaN if nothing remains. -/
def pmin (col : List EF) : EF :=
  match col.filter (fun x => !(isna x)) with
  | [] => .nan
  | x :: xs => xs.foldl efMin x

/-- `Series.max()`: skip NaN entries; NaN if nothing remains. -/
def pmax (col : List EF) : EF :=
  match col.filter (fun x => !(isna x)) with
  | [] => .nan
  | x :: xs => xs.foldl efMax x

/-- `calculate_focus_score`: Theta/Beta ratio; `float('inf')` when the beta
mean is zero (`caregiver.py` lines 86-98). -/
def calculate_focus_score (r : Row) : EF :=
  if betaMean r = 0 then .inf else .fin (thetaMean r / betaMean r)

/-- One score column's pass of the normalization loop of
`process_eeg_scores` (`caregiver.py` lines 140-146):
if `min` or `max` is NaN or they compare equal, the whole normalized
column is the constant `5.0`; otherwise `10 * (v - min) / (max - min)`. -/
def normalizeColumn (col : List EF) : List EF :=
  let min_v := pmin col
  let max_v := pmax col
  if isna min_v || isna max_v || efEq max_v min_v then
    col.map (fun _ => .fin 5)
  else
    col.map (fun v => efDiv (efMul10 (efSub v min_v)) (efSub max_v min_v))

/-! ## Band aggregation (`process_eeg_scores`, `caregiver.py` lines 129-132)

`band_cols = [c for c in out.columns if c.startswith(f"{band}_") and
c.endswith('_mean')]`; when non-empty, the derived lower-cased band column
is `out[band_cols].mean(axis=1)`: the mean over the columns actually
present (entries assumed numeric, i.e. NaN-free). -/

/-- Python `str.startswith`, modelled on the character lists. -/
def pyStartsWith (s p : String) : Bool := p.data.isPrefixOf s.data

/-- Python `str.endswith`, modelled on the character lists. -/
def pyEndsWith (s p : String) : Bool := p.data.isSuffixOf s.data

def bandCols (cols : List String) (band : String) : List String :=
  cols.filter (fun c => pyStartsWith c (band ++ "_") && pyEndsWith c "_mean")

/-- Value of the derived band column for one row (`v` maps a present column
name to its value); only meaningful when `bandCols cols band ≠ []`. -/
def bandValue (cols : List String) (band : String) (v : String → ℚ) : ℚ :=
  ((bandCols cols band).map v).sum / ((bandCols cols band).length : ℚ)

/-- The derived band column as the source creates it: absent entirely when
no matching column exists. -/
def bandValueOpt (cols : List String) (band : String) (v : String → ℚ) : Option ℚ :=
  if bandCols cols band = [] then none else some (bandValue cols band v)

/-- Value of a column with 0 substituted when the column is absent. -/
def specGet (cols : List String) (v : String → ℚ) (c : String) : ℚ :=
  if c ∈ cols then v c else 0

/-- Modelled from the spec claim (not from the source): the claimed formula
for the derived band value — the arithmetic mean of the band's 4
electrode-specific `{band}_{electrode}_mean` columns, substituting 0 for
each of those columns that is absent from the row. -/
def specBandMean (cols : List String) (band : String) (v : String → ℚ) : ℚ :=
  (specGet cols v (band ++ "_TP9_mean") + specGet cols v (band ++ "_AF7_mean") +
   specGet cols v (band ++ "_AF8_mean") + specGet cols v (band ++ "_TP10_mean")) / 4

/-! ## Recommendation aggregator (`run_predictions_on_uploaded_data`,
`caregiver.py` lines 258-277)

Per-row prediction data relevant to the aggregation: the resolved top
label (`predicted_top_label` column) and the maximum class probability
(`predicted_proba_max` column). -/

structure Pred : Type where
  topLabel : String
  probaMax : ℚ
deriving DecidableEq

/-- Add one row's weight to its label's group (building the per-group sums
of `groupby('predicted_top_label')['predicted_proba_max'].sum()`). -/
def addTo (lab : String) (p : ℚ) : List (String × ℚ) → List (String × ℚ)
  | [] => [(lab, p)]
  | e :: rest => if e.1 = lab then (e.1, e.2 + p) :: rest else e :: addTo lab p rest

/-- Per-top-label sums of the top probabilities, labels in encounter
order. -/
def groupSums (rows : List Pred) : List (String × ℚ) :=
  rows.foldl (fun acc r => addTo r.topLabel r.probaMax acc) []

/-- Descending-by-score order used by `.sort_values(ascending=False)`. -/
def byScoreDesc (a b : String × ℚ) : Prop := b.2 ≤ a.2

instance : DecidableRel byScoreDesc := fun a b => inferInstanceAs (Decidable (b.2 ≤ a.2))

instance : IsTotal (String × ℚ) byScoreDesc := ⟨fun a b => le_total b.2 a.2⟩

instance : IsTrans (String × ℚ) byScoreDesc := ⟨fun _ _ _ h1 h2 => le_trans h2 h1⟩

/-- Ascending-by-key order (pandas `groupby` sorts group keys). -/
def byKeyAsc (a b : String × ℚ) : Prop := a.1 ≤ b.1

instance : DecidableRel byKeyAsc := fun a b => inferInstanceAs (Decidable (a.1 ≤ b.1))

/-- `groupby('predicted_top_label')['predicted_proba_max'].sum()
    .sort_values(ascending=False)`. -/
def aggOf (rows : List Pred) : List (String × ℚ) :=
  List.insertionSort byScoreDesc (List.insertionSort byKeyAsc (groupSums rows))

/-- `total = float(agg.sum()) or 1.0`: the grand total, with `0.0`
(falsy in Python) replaced by `1.0` so the subsequent division is never
`0/0`. -/
def totalOf (rows : List Pred) : ℚ :=
  let s := ((aggOf rows).map Prod.snd).sum
  if s = 0 then 1 else s

/-- The ranked `{category, score}` list persisted for the patient
(probability-weighted branch). -/
def rankedOf (rows : List Pred) : List (String × ℚ) :=
  (aggOf rows).map (fun e => (e.1, e.2 / totalOf rows))

/-- The fallback branch: `value_counts(normalize=True)` of
`predicted_label` — counts per label sorted descending, divided by the
number of rows. -/
def freqRanked (labels : List String) : List (String × ℚ) :=
  let counts := List.insertionSort byScoreDesc
    (groupSums (labels.map (fun l => ⟨l, 1⟩)))
  counts.map (fun e => (e.1, e.2 / (labels.length : ℚ)))

/-! ## Playlist allocation (`general_user.py` lines 82-124) -/

structure Track : Type where
  name : String
  category : String
deriving DecidableEq

/-- One entry of the stored `categories` ranking; `score` is optional
(`r.get('score') or 0.0`). -/
structure RItem : Type where
  category : String
  score : Option ℚ
deriving DecidableEq

/-- The stored recommendation record (`get_recommendations` result). -/
structure RecEntry : Type where
  categories : List RItem
deriving DecidableEq

/-- The catalog: categories with their track lists (`get_catalog()`). -/
abbrev Catalog : Type := List (String × List Track)

/-- `cat in catalog` (dict key membership). -/
def catHas (catalog : Catalog) (c : String) : Bool :=
  catalog.any (fun p => p.1 == c)

/-- `catalog.get(cat, [])`. -/
def catGet (catalog : Catalog) (c : String) : List Track :=
  match catalog.find? (fun p => p.1 == c) with
  | some p => p.2
  | none => []

/-- Python 3 `round` on a real value: round half to even. -/
def pyRound (q : ℚ) : ℤ :=
  if q - ⌊q⌋ < 1 / 2 then ⌊q⌋
  else if 1 / 2 < q - ⌊q⌋ then ⌊q⌋ + 1
  else if ⌊q⌋ % 2 = 0 then ⌊q⌋ else ⌊q⌋ + 1

/-- Python `lst[:n]` (negative `n` drops from the end). -/
def pyTake {α : Type} (n : ℤ) (l : List α) : List α :=
  if 0 ≤ n then l.take n.toNat else l.take (l.length - n.natAbs)

/-- Normalization and catalog filtering of the stored ranking:
`total = float(sum(score or 0)) or 1.0` over the whole stored list, then
keep only categories present in the catalog, each with `score / total`
(scores are NOT renormalized after the filter). -/
def normRanked (ranked0 : List RItem) (catalog : Catalog) : List (String × ℚ) :=
  let s : ℚ := (ranked0.map (fun r => r.score.getD 0)).sum
  let total : ℚ := if s = 0 then 1 else s
  (ranked0.filter (fun r => catHas catalog r.category)).map
    (fun r => (r.category, r.score.getD 0 / total))

/-- The allocation loop: each category gets
`max(1, round(score * max_tracks))` capped at the remaining budget, the
last ranked category instead takes `max(1, remaining)`, and the loop
breaks once the remaining budget is exhausted. `n` is `max_tracks` (used
inside the rounding); the second argument is the remaining budget. -/
def allocGo (n : ℤ) : List (String × ℚ) → ℤ → List (String × ℤ)
  | [], _ => []
  | r :: rs, remaining =>
    let count0 : ℤ := max 1 (pyRound (r.2 * (n : ℚ)))
    let count1 : ℤ := if rs.isEmpty then max 1 remaining else count0
    let count : ℤ := min count1 remaining
    (r.1, count) :: (if remaining - count ≤ 0 then [] else allocGo n rs (remaining - count))

/-- Inner playlist loop: append each track of the category's slice
(tagging it with the category), breaking as soon as the playlist reaches
`max_tracks`. -/
def addTracks (maxTracks : ℤ) (cat : String) : List Track → List Track → List Track
  | [], acc => acc
  | t :: ts, acc =>
    let acc2 := acc ++ [{ t with category := cat }]
    if maxTracks ≤ (acc2.length : ℤ) then acc2 else addTracks maxTracks cat ts acc2

/-- Outer playlist loop over the allocation. -/
def playlistGo (maxTracks : ℤ) (catalog : Catalog) : List (String × ℤ) → List Track → List Track
  | [], acc => acc
  | (cat, cnt) :: rest, acc =>
    let acc2 := addTracks maxTracks cat (pyTake cnt (catGet catalog cat)) acc
    if maxTracks ≤ (acc2.length : ℤ) then acc2 else playlistGo maxTracks catalog rest acc2

/-- `get_recommended_playlist_for_user`, with the Firestore read
(`DDB().get_recommendations(user_email)`) supplied as `entry` and the
cached catalog supplied as `catalog`. -/
def get_recommended_playlist_for_user (userEmail : String) (entry : Option RecEntry)
    (catalog : Catalog) (maxTracks : ℤ) : List Track :=
  if userEmail = "" then []
  else
    match entry with
    | none => []
    | some e =>
      if e.categories.isEmpty then []
      else
        let ranked := normRanked e.categories catalog
        playlistGo maxTracks catalog (allocGo maxTracks ranked maxTracks) []

/-- Modelled from the spec claim (not from the source): the claimed total,
`min(N, sum of available tracks)` — available tracks summed over the
ranked categories present in the catalog. -/
def specAvailableSum (ranked0 : List RItem) (catalog : Catalog) : ℤ :=
  ((ranked0.filter (fun r => catHas catalog r.category)).map
    (fun r => ((catGet catalog r.category).length : ℤ))).sum

/-! ## Prediction runner (`run_predictions_on_uploaded_data`,
`caregiver.py` lines 171-305)

The dataframe is modelled by its schema (column list, numeric-dtype
predicate) plus its row count: the claim verified here is about control
flow and state mutation, not about cell values. The classifier is a black
box whose calls on this batch either return a value or raise
(`Except.error`), mirroring `model.predict` / `model.predict_proba` /
`model.classes_`. -/

def CLASS_LABELS : List String := ["Classical", "Rock", "Pop", "Rap", "R&B"]

/-- `class_value_to_label` for an integer class value: 1-based index into
`CLASS_LABELS`, falling back to a synthesized placeholder. (For an
integer value the string-match fallback of the source never fires.) -/
def class_value_to_label (val : ℤ) : String :=
  if 1 ≤ val ∧ val ≤ (CLASS_LABELS.length : ℤ) then
    CLASS_LABELS.getD (val - 1).toNat ""
  else "Class " ++ toString val

structure DF : Type where
  cols : List String
  numeric : String → Bool
  nrows : ℕ

def created_prefixes : List String :=
  ["engagement_score", "focus_score", "relaxation_score", "predicted_"]

def created_exact : List String :=
  ["delta", "theta", "alpha", "beta", "gamma", "melody_category", "Melody #", "timestamp"]

/-- `is_created`: columns produced by the app (engineered, normalized,
prediction outputs) or known non-feature fields. -/
def is_created (c : String) : Bool :=
  created_exact.contains c
  || created_prefixes.any (fun p => pyStartsWith c p)
  || pyEndsWith c "_normalized"

/-- The feature selector: numeric columns not created by the app. -/
def usedColsOf (df : DF) : List String :=
  df.cols.filter (fun c => !(is_created c) && df.numeric c)

/-- Classifier black box: results of its calls on this batch. `probaRes`
is `none` when the model has no `predict_proba` attribute. -/
structure Model : Type where
  predictRes : Except String (List ℤ)
  classes : Option (List ℤ)
  probaRes : Option (Except String (List (List ℚ)))

/-- `np.argmax` over one probability row (first index of the maximum). -/
def pyArgmaxGo : List ℚ → ℚ → ℕ → ℕ → ℕ
  | [], _, best, _ => best
  | y :: ys, m, best, i => if m < y then pyArgmaxGo ys y i (i + 1) else pyArgmaxGo ys m best (i + 1)

def pyArgmax : List ℚ → ℕ
  | [] => 0
  | x :: xs => pyArgmaxGo xs x 0 1

/-- `proba.max(axis=1)` over one probability row. -/
def rowMax : List ℚ → ℚ
  | [] => 0
  | x :: xs => xs.foldl max x

/-- The per-row `(predicted_top_label, predicted_proba_max)` pairs derived
from the probability matrix and `classes_`. -/
def predsOf (classes : List ℤ) (proba : List (List ℚ)) : List Pred :=
  proba.map (fun row =>
    ⟨class_value_to_label (classes.getD (pyArgmax row) 0), rowMax row⟩)

/-- User-visible outcome of one invocation. -/
inductive Outcome : Type where
  | warnedNoData : Outcome
  | errorNoFeatures : Outcome
  | errored : String → Outcome
  | savedNoPatient : Outcome
  | saved : Outcome
  | savedPutFailed : Outcome
deriving DecidableEq

/-- The code after the `st.session_state.processed_eeg_data = df_out`
assignment (line 247): compute the ranking and persist it. An exception
from the storage call is caught by the same outer `except`, but the state
assignment has already happened. -/
def savePhase (dfOut : DF) (ranked : List (String × ℚ)) (patientId : String)
    (ddbPut : Except String Bool) : Option DF × Outcome :=
  if patientId.trim = "" then (some dfOut, .savedNoPatient)
  else if ranked.isEmpty then (some dfOut, .saved)
  else
    match ddbPut with
    | .error e => (some dfOut, .errored e)
    | .ok true => (some dfOut, .saved)
    | .ok false => (some dfOut, .savedPutFailed)

/-- `run_predictions_on_uploaded_data`, with the ambient session state
passed in (`model?` = `ml_model_results['model']`, `df?` =
`processed_eeg_data`, `patientId`) and returned (first component = the
`processed_eeg_data` after the call). -/
def run_predictions_on_uploaded_data (model? : Option Model) (df? : Option DF)
    (patientId : String) (ddbPut : Except String Bool) : Option DF × Outcome :=
  match model?, df? with
  | none, d => (d, .warnedNoData)
  | some _, none => (none, .warnedNoData)
  | some m, some df =>
    if df.nrows = 0 then (some df, .warnedNoData)
    else
      let usedCols := usedColsOf df
      if usedCols.isEmpty then (some df, .errorNoFeatures)
      else
        match m.predictRes with
        | .error e => (some df, .errored e)
        | .ok yPred =>
          let labelCols := ["predicted_class", "predicted_label"]
          match m.probaRes with
          | some (.error e) => (some df, .errored e)
          | some (.ok proba) =>
            let topCols :=
              ["predicted_proba_max", "predicted_proba_top_index"] ++
                (match m.classes with
                 | some _ => ["predicted_top_label"]
                 | none => [])
            let dfOut : DF := { df with cols := df.cols ++ labelCols ++ topCols }
            let ranked :=
              match m.classes with
              | some cs => rankedOf (predsOf cs proba)
              | none => freqRanked (yPred.map class_value_to_label)
            savePhase dfOut ranked patientId ddbPut
          | none =>
            let dfOut : DF := { df with cols := df.cols ++ labelCols }
            savePhase dfOut (freqRanked (yPred.map class_value_to_label)) patientId ddbPut

/-! ## Supporting lemmas -/

theorem efMin_self (a : EF) : efMin a a = a := by
  unfold efMin; exact ite_self a

theorem efMax_self (a : EF) : efMax a a = a := by
  unfold efMax; exact ite_self a

theorem efEq_refl_of_not_nan (c : EF) (h : c ≠ EF.nan) : efEq c c = true := by
  cases c with
  | nan => exact absurd rfl h
  | inf => rfl
  | ninf => rfl
  | fin q => simp [efEq]

theorem foldl_efMin_const (c : EF) (xs : List EF) (h : ∀ y ∈ xs, y = c) :
    xs.foldl efMin c = c := by
  induction xs with
  | nil => rfl
  | cons x xs ih =>
    have hx : x = c := h x (by simp)
    subst hx
    simp only [List.foldl_cons, efMin_self]
    exact ih (fun y hy => h y (by simp [hy]))

theorem foldl_efMax_const (c : EF) (xs : List EF) (h : ∀ y ∈ xs, y = c) :
    xs.foldl efMax c = c := by
  induction xs with
  | nil => rfl
  | cons x xs ih =>
    have hx : x = c := h x (by simp)
    subst hx
    simp only [List.foldl_cons, efMax_self]
    exact ih (fun y hy => h y (by simp [hy]))

theorem pmin_const (col : List EF) (c : EF) (hne : col ≠ []) (hall : ∀ x ∈ col, x = c) :
    pmin col = c := by
  by_cases hc : c = EF.nan
  · subst hc
    have hf : col.filter (fun x => !(isna x)) = [] := by
      rw [List.filter_eq_nil_iff]
      intro a ha
      rw [hall a ha]
      simp [isna]
    unfold pmin
    rw [hf]
  · have hf : col.filter (fun x => !(isna x)) = col := by
      rw [List.filter_eq_self]
      intro a ha
      rw [hall a ha]
      cases c <;> simp_all [isna]
    unfold pmin
    rw [hf]
    cases col with
    | nil => exact absurd rfl hne
    | cons x xs =>
      have hx : x = c := hall x (by simp)
      subst hx
      exact foldl_efMin_const _ xs (fun y hy => hall y (by simp [hy]))

theorem pmax_const (col : List EF) (c : EF) (hne : col ≠ []) (hall : ∀ x ∈ col, x = c) :
    pmax col = c := by
  by_cases hc : c = EF.nan
  · subst hc
    have hf : col.filter (fun x => !(isna x)) = [] := by
      rw [List.filter_eq_nil_iff]
      intro a ha
      rw [hall a ha]
      simp [isna]
    unfold pmax
    rw [hf]
  · have hf : col.filter (fun x => !(isna x)) = col := by
      rw [List.filter_eq_self]
      intro a ha
      rw [hall a ha]
      cases c <;> simp_all [isna]
    unfold pmax
    rw [hf]
    cases col with
    | nil => exact absurd rfl hne
    | cons x xs =>
      have hx : x = c := hall x (by simp)
      subst hx
      exact foldl_efMax_const _ xs (fun y hy => hall y (by simp [hy]))

/-! ## Claim theorems -/

/-- C1: For every input row, the relaxation raw score equals exactly the
negation of the engagement raw score (`relaxation_raw = -engagement_raw`),
even though the code computes the two scores with separate functions. -/
theorem c1_relaxation_is_negated_engagement (r : Row) :
    calculate_relaxation_score r = - calculate_engagement_score r := by
  unfold calculate_relaxation_score calculate_engagement_score
  ring

/-- C8: For every row, the focus raw score equals `theta_mean / beta_mean`,
and whenever `beta_mean == 0` the result is positive infinity, signalling
an undefined focus rather than raising an error. -/
theorem c8_focus_ratio_and_inf_on_zero_beta (r : Row) :
    (betaMean r = 0 → calculate_focus_score r = EF.inf) ∧
    (betaMean r ≠ 0 → calculate_focus_score r = EF.fin (thetaMean r / betaMean r)) := by
  constructor <;> intro h <;> simp [calculate_focus_score, h]

/-- Concrete row for the C8 witness: only a theta column is present, so
the beta mean is 0. -/
def c8Row : Row := fun c => if c = "Theta_TP9_mean" then some 4 else none

theorem c8_witness :
    betaMean c8Row = 0 ∧ calculate_focus_score c8Row = EF.inf := by
  have hb : betaMean c8Row = 0 := by
    simp [betaMean, rget, c8Row]
  exact ⟨hb, (c8_focus_ratio_and_inf_on_zero_beta c8Row).1 hb⟩

/-- C6: For every score column whose batch minimum equals its maximum,
every normalized value in that column is set to the constant `5.0` instead
of failing with a divide-by-zero: the guard branch of the normalizer fires
and no division is evaluated. The claim's enumerated scenarios — all raw
values equal, a single row, the column entirely NaN/undefined, all values
equal to the same infinity — all make the batch minimum equal the maximum
(second conjunct). -/
theorem c6_constant_column_normalizes_to_five (col : List EF) :
    (pmin col = pmax col → normalizeColumn col = col.map (fun _ => EF.fin 5)) ∧
      (∀ c : EF, col ≠ [] → (∀ x ∈ col, x = c) → pmin col = pmax col) := by
  constructor
  · intro h
    unfold normalizeColumn
    by_cases hc : pmax col = EF.nan
    · rw [h, hc]
      simp [isna]
    · rw [h]
      simp [efEq_refl_of_not_nan _ hc]
  · intro c hne hall
    rw [pmin_const col c hne hall, pmax_const col c hne hall]

theorem c6_witness :
    pmin [EF.fin 3, EF.fin 3] = pmax [EF.fin 3, EF.fin 3] ∧
      normalizeColumn [EF.fin 3, EF.fin 3]
        = [EF.fin 3, EF.fin 3].map (fun _ => EF.fin 5) := by
  have h := c6_constant_column_normalizes_to_five [EF.fin 3, EF.fin 3]
  have hpm := h.2 (EF.fin 3) (by simp) (by simp)
  exact ⟨hpm, h.1 hpm⟩

/-- Row values for the C7 counterexample: a single beta electrode column
carrying the value 8. -/
def c7Val : String → ℚ := fun c => if c = "Beta_TP9_mean" then 8 else 0

/-- C7 counterexample: on a row whose only matching column is
`Beta_TP9_mean = 8`, the code's derived `beta` value is `8` (mean over the
one present column), while the claimed formula (mean over the 4 electrode
columns with 0 substituted for absent ones) gives `2`. -/
theorem c7_counterexample :
    bandValueOpt ["Beta_TP9_mean"] "Beta" c7Val = some 8 ∧
      specBandMean ["Beta_TP9_mean"] "Beta" c7Val = 2 ∧
      bandValueOpt ["Beta_TP9_mean"] "Beta" c7Val ≠
        some (specBandMean ["Beta_TP9_mean"] "Beta" c7Val) := by
  have hbc : bandCols ["Beta_TP9_mean"] "Beta" = ["Beta_TP9_mean"] := by decide
  have h1 : bandValueOpt ["Beta_TP9_mean"] "Beta" c7Val = some 8 := by
    unfold bandValueOpt bandValue
    rw [hbc]
    norm_num [c7Val]
  have h2 : specBandMean ["Beta_TP9_mean"] "Beta" c7Val = 2 := by
    unfold specBandMean specGet
    simp only [c7Val, (by decide : ("Beta" : String) ++ "_TP9_mean" = "Beta_TP9_mean"),
      (by decide : ("Beta" : String) ++ "_AF7_mean" = "Beta_AF7_mean"),
      (by decide : ("Beta" : String) ++ "_AF8_mean" = "Beta_AF8_mean"),
      (by decide : ("Beta" : String) ++ "_TP10_mean" = "Beta_TP10_mean")]
    simp
    norm_num
  refine ⟨h1, h2, ?_⟩
  rw [h1, h2]
  norm_num

/-- C7 (amended): when the columns matching `{band}_*_mean` are exactly the
4 electrode columns, the derived band value does equal the arithmetic mean
of those 4 columns; in general it is the mean over the matching columns
actually present (sum divided by the number present), and the derived
column is only created when at least one matching column exists. -/
theorem c7_amended_band_mean (cols : List String) (band : String) (v : String → ℚ)
    (h : bandCols cols band =
      [band ++ "_TP9_mean", band ++ "_AF7_mean", band ++ "_AF8_mean", band ++ "_TP10_mean"]) :
    bandValueOpt cols band v =
      some ((v (band ++ "_TP9_mean") + v (band ++ "_AF7_mean") +
             v (band ++ "_AF8_mean") + v (band ++ "_TP10_mean")) / 4) := by
  unfold bandValueOpt bandValue
  rw [h]
  simp only [List.map_cons, List.map_nil, List.sum_cons, List.sum_nil, List.length_cons,
    List.length_nil, if_neg (by simp : ¬([_, _, _, _] : List String) = [])]
  norm_num
  ring

/-- Columns for the C7 witness: all four Beta electrode columns present. -/
def c7Cols4 : List String :=
  ["Beta_TP9_mean", "Beta_AF7_mean", "Beta_AF8_mean", "Beta_TP10_mean"]

theorem c7_witness :
    bandCols c7Cols4 "Beta" =
        ["Beta" ++ "_TP9_mean", "Beta" ++ "_AF7_mean", "Beta" ++ "_AF8_mean",
          "Beta" ++ "_TP10_mean"] ∧
      bandValueOpt c7Cols4 "Beta" c7Val =
        some ((c7Val ("Beta" ++ "_TP9_mean") + c7Val ("Beta" ++ "_AF7_mean") +
               c7Val ("Beta" ++ "_AF8_mean") + c7Val ("Beta" ++ "_TP10_mean")) / 4) :=
  ⟨by decide, c7_amended_band_mean c7Cols4 "Beta" c7Val (by decide)⟩

/-! ## Minima and maxima of rational columns -/

/-- Minimum of a nonempty rational list (0 on the empty list). -/
def qmin : List ℚ → ℚ
  | [] => 0
  | q :: qs => qs.foldl min q

/-- Maximum of a nonempty rational list (0 on the empty list). -/
def qmax : List ℚ → ℚ
  | [] => 0
  | q :: qs => qs.foldl max q

theorem foldl_min_le_init (xs : List ℚ) (a : ℚ) : xs.foldl min a ≤ a := by
  induction xs generalizing a with
  | nil => exact le_refl a
  | cons x xs ih => exact le_trans (ih (min a x)) (min_le_left a x)

theorem foldl_min_le_mem (xs : List ℚ) (a x : ℚ) (hx : x ∈ xs) : xs.foldl min a ≤ x := by
  induction xs generalizing a with
  | nil => simp at hx
  | cons y ys ih =>
    rcases List.mem_cons.mp hx with h | h
    · subst h
      exact le_trans (foldl_min_le_init ys (min a x)) (min_le_right a x)
    · exact ih (min a y) h

theorem foldl_min_choice (xs : List ℚ) (a : ℚ) :
    xs.foldl min a = a ∨ xs.foldl min a ∈ xs := by
  induction xs generalizing a with
  | nil => exact Or.inl rfl
  | cons x xs ih =>
    rcases ih (min a x) with h | h
    · rcases min_choice a x with hm | hm
      · exact Or.inl (by rw [List.foldl_cons, h, hm])
      · exact Or.inr (by rw [List.foldl_cons, h, hm]; simp)
    · exact Or.inr (by simp [h])

theorem init_le_foldl_max (xs : List ℚ) (a : ℚ) : a ≤ xs.foldl max a := by
  induction xs generalizing a with
  | nil => exact le_refl a
  | cons x xs ih => exact le_trans (le_max_left a x) (ih (max a x))

theorem mem_le_foldl_max (xs : List ℚ) (a x : ℚ) (hx : x ∈ xs) : x ≤ xs.foldl max a := by
  induction xs generalizing a with
  | nil => simp at hx
  | cons y ys ih =>
    rcases List.mem_cons.mp hx with h | h
    · subst h
      exact le_trans (le_max_right a x) (init_le_foldl_max ys (max a x))
    · exact ih (max a y) h

theorem foldl_max_choice (xs : List ℚ) (a : ℚ) :
    xs.foldl max a = a ∨ xs.foldl max a ∈ xs := by
  induction xs generalizing a with
  | nil => exact Or.inl rfl
  | cons x xs ih =>
    rcases ih (max a x) with h | h
    · rcases max_choice a x with hm | hm
      · exact Or.inl (by rw [List.foldl_cons, h, hm])
      · exact Or.inr (by rw [List.foldl_cons, h, hm]; simp)
    · exact Or.inr (by simp [h])

theorem qmin_mem (l : List ℚ) (h : l ≠ []) : qmin l ∈ l := by
  cases l with
  | nil => exact absurd rfl h
  | cons q qs =>
    rcases foldl_min_choice qs q with h1 | h1
    · simp [qmin, h1]
    · simp [qmin, h1]

theorem qmin_le (l : List ℚ) (x : ℚ) (hx : x ∈ l) : qmin l ≤ x := by
  cases l with
  | nil => simp at hx
  | cons q qs =>
    rcases List.mem_cons.mp hx with h | h
    · subst h; exact foldl_min_le_init qs x
    · exact foldl_min_le_mem qs q x h

theorem qmax_mem (l : List ℚ) (h : l ≠ []) : qmax l ∈ l := by
  cases l with
  | nil => exact absurd rfl h
  | cons q qs =>
    rcases foldl_max_choice qs q with h1 | h1
    · simp [qmax, h1]
    · simp [qmax, h1]

theorem le_qmax (l : List ℚ) (x : ℚ) (hx : x ∈ l) : x ≤ qmax l := by
  cases l with
  | nil => simp at hx
  | cons q qs =>
    rcases List.mem_cons.mp hx with h | h
    · subst h; exact init_le_foldl_max qs x
    · exact mem_le_foldl_max qs q x h

theorem qmin_eq_of_le_of_mem (l : List ℚ) (c : ℚ) (hne : l ≠ [])
    (hmem : c ∈ l) (hle : ∀ x ∈ l, c ≤ x) : qmin l = c :=
  le_antisymm (qmin_le l c hmem) (hle _ (qmin_mem l hne))

theorem qmax_eq_of_ge_of_mem (l : List ℚ) (c : ℚ) (hne : l ≠ [])
    (hmem : c ∈ l) (hge : ∀ x ∈ l, x ≤ c) : qmax l = c :=
  le_antisymm (hge _ (qmax_mem l hne)) (le_qmax l c hmem)

/-! ## Pandas min/max on all-finite columns -/

theorem efMin_fin (a b : ℚ) : efMin (EF.fin a) (EF.fin b) = EF.fin (min a b) := by
  rcases le_or_lt a b with h | h
  · simp [efMin, efLe, h, min_eq_left h]
  · simp [efMin, efLe, not_le.mpr h, min_eq_right h.le]

theorem efMax_fin (a b : ℚ) : efMax (EF.fin a) (EF.fin b) = EF.fin (max a b) := by
  rcases le_or_lt a b with h | h
  · simp [efMax, efLe, h, max_eq_right h]
  · simp [efMax, efLe, not_le.mpr h, max_eq_left h.le]

theorem foldl_efMin_fin (qs : List ℚ) (a : ℚ) :
    (qs.map EF.fin).foldl efMin (EF.fin a) = EF.fin (qs.foldl min a) := by
  induction qs generalizing a with
  | nil => rfl
  | cons q qs ih => simp only [List.map_cons, List.foldl_cons, efMin_fin, ih]

theorem foldl_efMax_fin (qs : List ℚ) (a : ℚ) :
    (qs.map EF.fin).foldl efMax (EF.fin a) = EF.fin (qs.foldl max a) := by
  induction qs generalizing a with
  | nil => rfl
  | cons q qs ih => simp only [List.map_cons, List.foldl_cons, efMax_fin, ih]

theorem filter_map_fin (l : List ℚ) :
    (l.map EF.fin).filter (fun x => !(isna x)) = l.map EF.fin := by
  rw [List.filter_eq_self]
  intro a ha
  rcases List.mem_map.mp ha with ⟨q, _, rfl⟩
  simp [isna]

theorem pmin_map_fin (l : List ℚ) (h : l ≠ []) :
    pmin (l.map EF.fin) = EF.fin (qmin l) := by
  unfold pmin
  rw [filter_map_fin]
  cases l with
  | nil => exact absurd rfl h
  | cons q qs => simpa [qmin] using foldl_efMin_fin qs q

theorem pmax_map_fin (l : List ℚ) (h : l ≠ []) :
    pmax (l.map EF.fin) = EF.fin (qmax l) := by
  unfold pmax
  rw [filter_map_fin]
  cases l with
  | nil => exact absurd rfl h
  | cons q qs => simpa [qmax] using foldl_efMax_fin qs q

/-- C5 counterexample: the column `[1.0, inf]` has N = 2 rows and is not
constant, yet its normalized column is `[0.0, NaN]` (the infinite row
yields `inf/inf = NaN`), so the normalized maximum is `0`, not `10`:
the claim fails when the column contains infinite raw focus values. -/
theorem c5_counterexample :
    (2 ≤ ([EF.fin 1, EF.inf] : List EF).length ∧ EF.fin 1 ≠ EF.inf) ∧
      pmax (normalizeColumn [EF.fin 1, EF.inf]) ≠ EF.fin 10 := by
  decide

/-- C5 (amended): for every score column of a batch of N ≥ 2 rows whose
raw values are all finite and not all equal, the normalized column
`10 * (value - min) / (max - min)` attains minimum exactly 0 and maximum
exactly 10. (When the column also contains infinity, the infinite rows
normalize to NaN and the finite rows to 0, so the normalized maximum is 0
instead — see the counterexample.) -/
theorem c5_nonconstant_finite_normalization (l : List ℚ) (h2 : 2 ≤ l.length)
    (a b : ℚ) (ha : a ∈ l) (hb : b ∈ l) (hab : a ≠ b) :
    pmin (normalizeColumn (l.map EF.fin)) = EF.fin 0 ∧
      pmax (normalizeColumn (l.map EF.fin)) = EF.fin 10 := by
  have hne : l ≠ [] := by rintro rfl; simp at ha
  have hm_le_a := qmin_le l a ha
  have hm_le_b := qmin_le l b hb
  have ha_le_M := le_qmax l a ha
  have hb_le_M := le_qmax l b hb
  have hmM : qmin l < qmax l := by
    by_contra hcon
    push_neg at hcon
    have hA : a = qmin l := le_antisymm (ha_le_M.trans hcon) hm_le_a
    have hB : b = qmin l := le_antisymm (hb_le_M.trans hcon) hm_le_b
    exact hab (hA.trans hB.symm)
  have hMm : qmax l - qmin l ≠ 0 := sub_ne_zero.mpr (ne_of_gt hmM)
  have hMmpos : 0 < qmax l - qmin l := sub_pos.mpr hmM
  have hg : ∀ q : ℚ,
      efDiv (efMul10 (efSub (EF.fin q) (EF.fin (qmin l)))) (efSub (EF.fin (qmax l)) (EF.fin (qmin l)))
        = EF.fin (10 * (q - qmin l) / (qmax l - qmin l)) := by
    intro q
    simp [efSub, efMul10, efDiv, hMm]
  have hnorm : normalizeColumn (l.map EF.fin)
      = (l.map (fun q => 10 * (q - qmin l) / (qmax l - qmin l))).map EF.fin := by
    unfold normalizeColumn
    rw [pmin_map_fin l hne, pmax_map_fin l hne]
    have hguard : (isna (EF.fin (qmin l)) || isna (EF.fin (qmax l))
        || efEq (EF.fin (qmax l)) (EF.fin (qmin l))) = false := by
      simp [isna, efEq, ne_of_gt hmM]
    simp only [hguard, Bool.false_eq_true, if_false, List.map_map]
    exact List.map_congr_left (fun q _ => hg q)
  have hmapne : l.map (fun q => 10 * (q - qmin l) / (qmax l - qmin l)) ≠ [] := by
    simpa using hne
  rw [hnorm, pmin_map_fin _ hmapne, pmax_map_fin _ hmapne]
  constructor
  · congr 1
    apply qmin_eq_of_le_of_mem _ _ hmapne
    · exact List.mem_map.mpr ⟨qmin l, qmin_mem l hne, by simp⟩
    · intro x hx
      rcases List.mem_map.mp hx with ⟨q, hq, rfl⟩
      have hqm : qmin l ≤ q := qmin_le l q hq
      apply div_nonneg _ hMmpos.le
      nlinarith
  · congr 1
    apply qmax_eq_of_ge_of_mem _ _ hmapne
    · refine List.mem_map.mpr ⟨qmax l, qmax_mem l hne, ?_⟩
      rw [mul_div_assoc, div_self hMm, mul_one]
    · intro x hx
      rcases List.mem_map.mp hx with ⟨q, hq, rfl⟩
      have hqM : q ≤ qmax l := le_qmax l q hq
      rw [div_le_iff₀ hMmpos]
      nlinarith

theorem c5_witness :
    pmin (normalizeColumn (([1, 3] : List ℚ).map EF.fin)) = EF.fin 0 ∧
      pmax (normalizeColumn (([1, 3] : List ℚ).map EF.fin)) = EF.fin 10 :=
  c5_nonconstant_finite_normalization [1, 3] (by decide) 1 3 (by decide) (by decide)
    (by decide)

/-! ## Sums of grouped scores -/

theorem addTo_snd_sum (lab : String) (p : ℚ) (acc : List (String × ℚ)) :
    ((addTo lab p acc).map Prod.snd).sum = p + (acc.map Prod.snd).sum := by
  induction acc with
  | nil => simp [addTo]
  | cons e rest ih =>
    by_cases h : e.1 = lab
    · simp only [addTo, if_pos h, List.map_cons, List.sum_cons]
      ring
    · simp only [addTo, if_neg h, List.map_cons, List.sum_cons, ih]
      ring

theorem foldl_addTo_sum (rows : List Pred) (acc : List (String × ℚ)) :
    (((rows.foldl (fun acc r => addTo r.topLabel r.probaMax acc) acc)).map Prod.snd).sum
      = (acc.map Prod.snd).sum + (rows.map Pred.probaMax).sum := by
  induction rows generalizing acc with
  | nil => simp
  | cons r rows ih =>
    simp only [List.foldl_cons, List.map_cons, List.sum_cons, ih, addTo_snd_sum]
    ring

theorem groupSums_snd_sum (rows : List Pred) :
    ((groupSums rows).map Prod.snd).sum = (rows.map Pred.probaMax).sum := by
  unfold groupSums
  rw [foldl_addTo_sum]
  simp

theorem aggOf_perm (rows : List Pred) : List.Perm (aggOf rows) (groupSums rows) :=
  (List.perm_insertionSort byScoreDesc _).trans (List.perm_insertionSort byKeyAsc _)

theorem aggOf_snd_sum (rows : List Pred) :
    ((aggOf rows).map Prod.snd).sum = (rows.map Pred.probaMax).sum := by
  rw [((aggOf_perm rows).map Prod.snd).sum_eq, groupSums_snd_sum]

theorem sum_map_snd_div (l : List (String × ℚ)) (t : ℚ) :
    ((l.map (fun e => (e.1, e.2 / t))).map Prod.snd).sum = ((l.map Prod.snd).sum) / t := by
  induction l with
  | nil => simp
  | cons e rest ih =>
    simp only [List.map_cons, List.sum_cons, ih]
    ring

theorem addTo_val_zero (lab : String) (p : ℚ) (acc : List (String × ℚ))
    (hp : p = 0) (hacc : ∀ e ∈ acc, e.2 = 0) : ∀ e ∈ addTo lab p acc, e.2 = 0 := by
  induction acc with
  | nil =>
    intro e he
    simp only [addTo, List.mem_singleton] at he
    rw [he, hp]
  | cons x rest ih =>
    intro e he
    by_cases hx : x.1 = lab
    · simp only [addTo, if_pos hx] at he
      rcases List.mem_cons.mp he with h | h
      · rw [h]
        simp [hacc x (by simp), hp]
      · exact hacc e (by simp [h])
    · simp only [addTo, if_neg hx] at he
      rcases List.mem_cons.mp he with h | h
      · rw [h]; exact hacc x (by simp)
      · exact ih (fun z hz => hacc z (by simp [hz])) e h

/-- C4 counterexample: a batch of one row whose top probability is `0` has
zero total weight, yet the aggregator's output is the non-empty list
`[("Rock", 0)]` (the divisor is replaced by `1.0`), contradicting the
claim that zero total weight yields an empty ranking list. -/
theorem c4_counterexample :
    (([⟨"Rock", 0⟩] : List Pred).map Pred.probaMax).sum = 0 ∧
      rankedOf [⟨"Rock", 0⟩] ≠ [] := by
  constructor
  · simp
  · simp [rankedOf, aggOf, groupSums, addTo]

/-- C4 (amended): a batch of zero rows produces an empty ranking list; the
normalizing divisor is never zero (when the grand total is `0.0`, Python's
`or 1.0` replaces it by `1`, so no `0/0` is attempted); and for a batch of
zero total weight with non-negative weights — in particular all weights
zero — the ranking list carries one entry per top label, each with score
exactly `0` (it is NOT empty when rows exist). -/
theorem c4_zero_weight_guard :
    rankedOf [] = [] ∧
      (∀ rows : List Pred, totalOf rows ≠ 0) ∧
      (∀ rows : List Pred, (∀ r ∈ rows, r.probaMax = 0) →
        ∀ e ∈ rankedOf rows, e.2 = 0) := by
  refine ⟨rfl, ?_, ?_⟩
  · intro rows
    unfold totalOf
    by_cases h : ((aggOf rows).map Prod.snd).sum = 0
    · simp [h]
    · simp [h]
  · intro rows hall e he
    have hacc : ∀ e ∈ groupSums rows, e.2 = 0 := by
      suffices hgen : ∀ (rs : List Pred) (acc : List (String × ℚ)),
          (∀ r ∈ rs, r.probaMax = 0) → (∀ e ∈ acc, e.2 = 0) →
          ∀ e ∈ rs.foldl (fun acc r => addTo r.topLabel r.probaMax acc) acc, e.2 = 0 by
        exact hgen rows [] hall (by simp)
      intro rs
      induction rs with
      | nil => intro acc _ hacc e he; exact hacc e he
      | cons r rs ih =>
        intro acc hrs hacc e he
        refine ih (addTo r.topLabel r.probaMax acc) (fun x hx => hrs x (by simp [hx])) ?_ e he
        exact addTo_val_zero r.topLabel r.probaMax acc (hrs r (by simp)) hacc
    rcases List.mem_map.mp he with ⟨x, hx, rfl⟩
    have hx0 : x.2 = 0 := hacc x ((aggOf_perm rows).mem_iff.mp hx)
    simp [hx0]

theorem c4_witness :
    (∀ r ∈ ([⟨"Rock", 0⟩] : List Pred), r.probaMax = 0) ∧
      totalOf [⟨"Rock", 0⟩] ≠ 0 ∧
      ∀ e ∈ rankedOf [⟨"Rock", 0⟩], e.2 = 0 := by
  have h := c4_zero_weight_guard
  exact ⟨by simp, h.2.1 _, h.2.2 [⟨"Rock", 0⟩] (by simp)⟩

theorem sum_map_one (labels : List String) :
    (labels.map (fun _ => (1 : ℚ))).sum = (labels.length : ℚ) := by
  induction labels with
  | nil => simp
  | cons l ls ih => simp [ih]; ring

theorem sorted_map_div (l : List (String × ℚ)) (t : ℚ) (ht : 0 ≤ t)
    (h : List.Sorted byScoreDesc l) :
    List.Sorted byScoreDesc (l.map (fun e => (e.1, e.2 / t))) := by
  refine List.Pairwise.map _ ?_ h
  intro a b hab
  show (b.1, b.2 / t).2 ≤ (a.1, a.2 / t).2
  simp only
  rw [div_eq_mul_inv, div_eq_mul_inv]
  exact mul_le_mul_of_nonneg_right hab (inv_nonneg.mpr ht)

/-- C3: For every non-empty prediction batch with positive total weight,
the recommendation aggregator outputs a list of `{category, score}` sorted
by descending score whose scores sum to 1 (exactly, in the rational model,
hence within 1e-6): probability-weighted per-top-label sums divided by the
grand total when top labels and top probabilities are available
(`rankedOf`), plain relative frequency of the predicted label otherwise
(`freqRanked`). -/
theorem c3_ranking_sums_to_one_and_sorted (rows : List Pred) (labels : List String)
    (_hrows : rows ≠ []) (hw : 0 < (rows.map Pred.probaMax).sum) (hlabels : labels ≠ []) :
    (((rankedOf rows).map Prod.snd).sum = 1 ∧ List.Sorted byScoreDesc (rankedOf rows)) ∧
      (((freqRanked labels).map Prod.snd).sum = 1 ∧
        List.Sorted byScoreDesc (freqRanked labels)) := by
  have hsne : (rows.map Pred.probaMax).sum ≠ 0 := ne_of_gt hw
  have htot : totalOf rows = (rows.map Pred.probaMax).sum := by
    unfold totalOf
    rw [aggOf_snd_sum]
    simp [hsne]
  constructor
  · constructor
    · unfold rankedOf
      rw [sum_map_snd_div, aggOf_snd_sum, htot, div_self hsne]
    · have hs : List.Sorted byScoreDesc (aggOf rows) :=
        List.sorted_insertionSort byScoreDesc _
      have htpos : (0 : ℚ) ≤ totalOf rows := by rw [htot]; exact hw.le
      exact sorted_map_div _ _ htpos hs
  · have hlen : ((labels.length : ℚ)) ≠ 0 := by
      have hpos : 0 < labels.length := List.length_pos.mpr hlabels
      positivity
    have hcsum : ((List.insertionSort byScoreDesc
        (groupSums (labels.map (fun l => ⟨l, 1⟩)))).map Prod.snd).sum = (labels.length : ℚ) := by
      rw [((List.perm_insertionSort byScoreDesc
        (groupSums (labels.map (fun l => ⟨l, 1⟩)))).map Prod.snd).sum_eq]
      rw [groupSums_snd_sum]
      rw [List.map_map]
      exact sum_map_one labels
    constructor
    · unfold freqRanked
      rw [sum_map_snd_div, hcsum, div_self hlen]
    · have hs : List.Sorted byScoreDesc
          (List.insertionSort byScoreDesc (groupSums (labels.map (fun l => ⟨l, 1⟩)))) :=
        List.sorted_insertionSort byScoreDesc _
      have hlnn : (0 : ℚ) ≤ (labels.length : ℚ) := by positivity
      exact sorted_map_div _ _ hlnn hs

theorem c3_witness :
    (([⟨"Rock", 1/2⟩] : List Pred) ≠ [] ∧
        0 < (([⟨"Rock", 1/2⟩] : List Pred).map Pred.probaMax).sum ∧
        (["Pop"] : List String) ≠ []) ∧
      ((rankedOf [⟨"Rock", 1/2⟩]).map Prod.snd).sum = 1 ∧
      ((freqRanked ["Pop"]).map Prod.snd).sum = 1 := by
  have hw : 0 < (([⟨"Rock", 1/2⟩] : List Pred).map Pred.probaMax).sum := by
    simp only [List.map_cons, List.map_nil, List.sum_cons, List.sum_nil]
    norm_num
  have h := c3_ranking_sums_to_one_and_sorted [⟨"Rock", 1/2⟩] ["Pop"] (by simp) hw (by simp)
  exact ⟨⟨by simp, hw, by simp⟩, h.1.1, h.2.1⟩

/-! ## Playlist length bounds -/

theorem addTracks_length_le (maxTracks : ℤ) (cat : String) (ts acc : List Track)
    (h : (acc.length : ℤ) < maxTracks) :
    ((addTracks maxTracks cat ts acc).length : ℤ) ≤ maxTracks := by
  induction ts generalizing acc with
  | nil => exact h.le
  | cons t ts ih =>
    simp only [addTracks]
    by_cases hb : maxTracks ≤ (((acc ++ [{ t with category := cat }]).length : ℕ) : ℤ)
    · rw [if_pos hb]
      simp only [List.length_append, List.length_cons, List.length_nil]
      push_cast
      omega
    · rw [if_neg hb]
      exact ih _ (by omega)

theorem playlistGo_length_le (maxTracks : ℤ) (catalog : Catalog)
    (alloc : List (String × ℤ)) (acc : List Track)
    (h : (acc.length : ℤ) < maxTracks) :
    ((playlistGo maxTracks catalog alloc acc).length : ℤ) ≤ maxTracks := by
  induction alloc generalizing acc with
  | nil => exact h.le
  | cons p rest ih =>
    obtain ⟨cat, cnt⟩ := p
    simp only [playlistGo]
    have hacc2 : ((addTracks maxTracks cat (pyTake cnt (catGet catalog cat)) acc).length : ℤ)
        ≤ maxTracks := addTracks_length_le maxTracks cat _ acc h
    by_cases hb : maxTracks ≤
        ((addTracks maxTracks cat (pyTake cnt (catGet catalog cat)) acc).length : ℤ)
    · rw [if_pos hb]
      exact hacc2
    · rw [if_neg hb]
      exact ih _ (by omega)

/-- C10: For every stored recommendation record, every catalog, and every
requested size `max_tracks ≥ 1`, the playlist returned by
`get_recommended_playlist_for_user` contains at most `max_tracks` tracks;
an empty list is returned when the user email is empty, when no record
exists, and when the record has no categories. -/
theorem c10_playlist_bounded (userEmail : String) (entry : Option RecEntry)
    (catalog : Catalog) (maxTracks : ℤ) (h : 1 ≤ maxTracks) :
    ((get_recommended_playlist_for_user userEmail entry catalog maxTracks).length : ℤ)
        ≤ maxTracks ∧
      (userEmail = "" →
        get_recommended_playlist_for_user userEmail entry catalog maxTracks = []) ∧
      (entry = none →
        get_recommended_playlist_for_user userEmail entry catalog maxTracks = []) ∧
      (∀ e : RecEntry, entry = some e → e.categories = [] →
        get_recommended_playlist_for_user userEmail entry catalog maxTracks = []) := by
  refine ⟨?_, ?_, ?_, ?_⟩
  · unfold get_recommended_playlist_for_user
    by_cases he : userEmail = ""
    · simp only [if_pos he, List.length_nil]
      omega
    · rw [if_neg he]
      match entry with
      | none => simp only [List.length_nil]; omega
      | some e =>
        by_cases hc : e.categories.isEmpty
        · simp only [if_pos hc, List.length_nil]; omega
        · simp only [if_neg hc]
          exact playlistGo_length_le maxTracks catalog _ [] (by simp; omega)
  · intro he
    unfold get_recommended_playlist_for_user
    rw [if_pos he]
  · intro he
    subst he
    unfold get_recommended_playlist_for_user
    by_cases he : userEmail = ""
    · rw [if_pos he]
    · rw [if_neg he]
  · intro e he hcats
    subst he
    unfold get_recommended_playlist_for_user
    by_cases he : userEmail = ""
    · rw [if_pos he]
    · rw [if_neg he]
      simp [hcats]

theorem c10_witness :
    (1 : ℤ) ≤ 6 ∧
      ((get_recommended_playlist_for_user "" none [] 6).length : ℤ) ≤ 6 ∧
      get_recommended_playlist_for_user "" none [] 6 = [] :=
  ⟨by norm_num,
    (c10_playlist_bounded "" none [] 6 (by norm_num)).1,
    (c10_playlist_bounded "" none [] 6 (by norm_num)).2.1 rfl⟩

/-! ## Allocation totals -/

theorem allocGo_snd_sum (n : ℤ) :
    ∀ (ranked : List (String × ℚ)) (remaining : ℤ), ranked ≠ [] → 1 ≤ remaining →
      ((allocGo n ranked remaining).map Prod.snd).sum = remaining := by
  intro ranked
  induction ranked with
  | nil => intro remaining hne _; exact absurd rfl hne
  | cons r rs ih =>
    intro remaining _ hrem
    by_cases hrs : rs = []
    · subst hrs
      simp [allocGo, max_eq_right hrem, min_self]
    · have hrs' : rs.isEmpty = false := by simpa [List.isEmpty_iff] using hrs
      simp only [allocGo, hrs', Bool.false_eq_true, if_false]
      set count : ℤ := min (max 1 (pyRound (r.2 * (n : ℚ)))) remaining with hcount
      have hc1 : 1 ≤ count := le_min (le_max_left 1 _) hrem
      have hc2 : count ≤ remaining := min_le_right _ _
      by_cases hstop : remaining - count ≤ 0
      · rw [if_pos hstop]
        simp only [List.map_cons, List.map_nil, List.sum_cons, List.sum_nil]
        omega
      · rw [if_neg hstop]
        simp only [List.map_cons, List.sum_cons]
        rw [ih (remaining - count) hrs (by omega)]
        ring

theorem allocGo_counts_pos (n : ℤ) (ranked : List (String × ℚ)) (remaining : ℤ)
    (hrem : 1 ≤ remaining) :
    ∀ p ∈ allocGo n ranked remaining, 1 ≤ p.2 := by
  induction ranked generalizing remaining with
  | nil => simp [allocGo]
  | cons r rs ih =>
    intro p hp
    simp only [allocGo] at hp
    set count1 : ℤ := if rs.isEmpty then max 1 remaining else max 1 (pyRound (r.2 * (n : ℚ)))
      with hcount1
    have hc1 : 1 ≤ count1 := by
      rw [hcount1]
      by_cases h : rs.isEmpty <;> simp [h, le_max_left]
    rcases List.mem_cons.mp hp with h | h
    · rw [h]
      exact le_min hc1 hrem
    · by_cases hstop : remaining - min count1 remaining ≤ 0
      · rw [if_pos hstop] at h
        simp at h
      · rw [if_neg hstop] at h
        exact ih (remaining - min count1 remaining) (by omega) p h

theorem pyTake_length_of_nonneg {α : Type} (n : ℤ) (hn : 0 ≤ n) (l : List α) :
    ((pyTake n l).length : ℤ) = min n (l.length : ℤ) := by
  unfold pyTake
  rw [if_pos hn, List.length_take, Nat.cast_min, Int.toNat_of_nonneg hn]

theorem addTracks_length_eq (maxTracks : ℤ) (cat : String) (ts acc : List Track)
    (h : (acc.length : ℤ) + ts.length ≤ maxTracks) :
    (addTracks maxTracks cat ts acc).length = acc.length + ts.length := by
  induction ts generalizing acc with
  | nil => simp [addTracks]
  | cons t ts ih =>
    simp only [addTracks]
    by_cases hb : maxTracks ≤ (((acc ++ [{ t with category := cat }]).length : ℕ) : ℤ)
    · rw [if_pos hb]
      have hts : ts = [] := by
        simp only [List.length_append, List.length_cons, List.length_nil] at hb
        simp only [List.length_cons] at h
        have h0 : ts.length = 0 := by omega
        exact List.length_eq_zero.mp h0
      subst hts
      simp
    · rw [if_neg hb]
      rw [ih _ (by simp only [List.length_append, List.length_cons, List.length_nil] at *; push_cast at *; omega)]
      simp only [List.length_append, List.length_cons, List.length_nil]
      omega

theorem playlistGo_length_eq (maxTracks : ℤ) (catalog : Catalog)
    (alloc : List (String × ℤ)) (acc : List Track)
    (hpos : ∀ p ∈ alloc, 1 ≤ p.2)
    (hbound : (acc.length : ℤ)
        + ((alloc.map (fun p => min p.2 ((catGet catalog p.1).length : ℤ))).sum) ≤ maxTracks) :
    ((playlistGo maxTracks catalog alloc acc).length : ℤ)
      = acc.length + (alloc.map (fun p => min p.2 ((catGet catalog p.1).length : ℤ))).sum := by
  induction alloc generalizing acc with
  | nil => simp [playlistGo]
  | cons p rest ih =>
    obtain ⟨cat, cnt⟩ := p
    have hcnt : (1 : ℤ) ≤ cnt := hpos (cat, cnt) (by simp)
    have htake : ((pyTake cnt (catGet catalog cat)).length : ℤ)
        = min cnt ((catGet catalog cat).length : ℤ) :=
      pyTake_length_of_nonneg cnt (by omega) _
    have hm1nn : 0 ≤ min cnt ((catGet catalog cat).length : ℤ) :=
      le_min (by omega) (by positivity)
    have hrestnn : 0 ≤ (rest.map (fun p => min p.2 ((catGet catalog p.1).length : ℤ))).sum := by
      apply List.sum_nonneg
      intro x hx
      rcases List.mem_map.mp hx with ⟨q, hq, rfl⟩
      have : (1 : ℤ) ≤ q.2 := hpos q (by simp [hq])
      exact le_min (by omega) (by positivity)
    simp only [List.map_cons, List.sum_cons] at hbound
    have hlen2 : ((addTracks maxTracks cat (pyTake cnt (catGet catalog cat)) acc).length : ℤ)
        = acc.length + min cnt ((catGet catalog cat).length : ℤ) := by
      rw [addTracks_length_eq maxTracks cat _ acc (by rw [htake]; omega)]
      push_cast
      rw [htake]
    simp only [playlistGo]
    by_cases hb : maxTracks ≤
        ((addTracks maxTracks cat (pyTake cnt (catGet catalog cat)) acc).length : ℤ)
    · rw [if_pos hb]
      have hrest0 : (rest.map (fun p => min p.2 ((catGet catalog p.1).length : ℤ))).sum = 0 := by
        omega
      simp only [List.map_cons, List.sum_cons]
      rw [hlen2, hrest0]
      ring
    · rw [if_neg hb]
      rw [ih _ (fun q hq => hpos q (by simp [hq])) (by rw [hlen2]; omega)]
      simp only [List.map_cons, List.sum_cons]
      rw [hlen2]
      ring

/-- C2 (amended): for every ranking with at least one ranked category
present in the catalog and every playlist size N ≥ 1, the allocated
per-category counts (each `max(1, round(score * N))` capped at the
remaining budget, the last ranked category absorbing the remainder) sum to
exactly N, and the total number of tracks in the returned playlist equals
the sum over the allocation of `min(allocated count, tracks available in
that category)` — which equals `min(N, sum of available tracks)` only when
at most one category runs short; a high-ranked category with fewer tracks
than its allocated count makes the playlist shorter (see the
counterexample). -/
theorem c2_playlist_total (userEmail : String) (e : RecEntry) (catalog : Catalog)
    (maxTracks : ℤ) (hemail : userEmail ≠ "") (hcats : e.categories.isEmpty = false)
    (hranked : normRanked e.categories catalog ≠ []) (hN : 1 ≤ maxTracks) :
    ((get_recommended_playlist_for_user userEmail (some e) catalog maxTracks).length : ℤ)
        = ((allocGo maxTracks (normRanked e.categories catalog) maxTracks).map
            (fun p => min p.2 ((catGet catalog p.1).length : ℤ))).sum ∧
      ((allocGo maxTracks (normRanked e.categories catalog) maxTracks).map Prod.snd).sum
        = maxTracks := by
  have hsum := allocGo_snd_sum maxTracks (normRanked e.categories catalog) maxTracks hranked hN
  have hpos := allocGo_counts_pos maxTracks (normRanked e.categories catalog) maxTracks hN
  have hminle : ((allocGo maxTracks (normRanked e.categories catalog) maxTracks).map
        (fun p => min p.2 ((catGet catalog p.1).length : ℤ))).sum
      ≤ ((allocGo maxTracks (normRanked e.categories catalog) maxTracks).map Prod.snd).sum :=
    List.sum_le_sum (fun p _ => min_le_left _ _)
  refine ⟨?_, hsum⟩
  unfold get_recommended_playlist_for_user
  rw [if_neg hemail]
  simp only [hcats, Bool.false_eq_true, if_false]
  rw [playlistGo_length_eq maxTracks catalog _ [] hpos
    (by simp only [List.length_nil, Nat.cast_zero, zero_add]; omega)]
  simp

/-- Entry for the C2 witness: one ranked category with full score. -/
def c2wEntry : RecEntry := ⟨[⟨"Classical", some 1⟩]⟩

/-- Catalog for the C2 witness: two Classical tracks. -/
def c2wCatalog : Catalog :=
  [("Classical", [⟨"c0", "Classical"⟩, ⟨"c1", "Classical"⟩])]

theorem c2_witness :
    (("u@x" : String) ≠ "" ∧ c2wEntry.categories.isEmpty = false ∧
        normRanked c2wEntry.categories c2wCatalog ≠ [] ∧ (1 : ℤ) ≤ 1) ∧
      ((get_recommended_playlist_for_user "u@x" (some c2wEntry) c2wCatalog 1).length : ℤ)
          = ((allocGo 1 (normRanked c2wEntry.categories c2wCatalog) 1).map
              (fun p => min p.2 ((catGet c2wCatalog p.1).length : ℤ))).sum ∧
      ((allocGo 1 (normRanked c2wEntry.categories c2wCatalog) 1).map Prod.snd).sum = 1 := by
  have hranked : normRanked c2wEntry.categories c2wCatalog ≠ [] := by
    simp [normRanked, c2wEntry, c2wCatalog, catHas]
  have h := c2_playlist_total "u@x" c2wEntry c2wCatalog 1 (by simp) (by simp [c2wEntry])
    hranked (by norm_num)
  exact ⟨⟨by simp, by simp [c2wEntry], hranked, by norm_num⟩, h.1, h.2⟩

/-- Stored ranking for the C2 counterexample. -/
def c2Entry : RecEntry := ⟨[⟨"Classical", some (9 / 10)⟩, ⟨"Rock", some (1 / 10)⟩]⟩

/-- Catalog for the C2 counterexample: one Classical track, two Rock
tracks. -/
def c2Catalog : Catalog :=
  [("Classical", [⟨"c0", "Classical"⟩]), ("Rock", [⟨"r0", "Rock"⟩, ⟨"r1", "Rock"⟩])]

/-- C2 counterexample: ranking Classical 0.9 / Rock 0.1, N = 6, catalog
with 1 Classical and 2 Rock tracks. Both ranked categories have catalog
tracks and N ≥ 1, the allocation is `[(Classical, 5), (Rock, 1)]`, but
Classical has only 1 track, so the playlist holds 2 tracks while
`min(N, sum of available tracks) = min(6, 3) = 3`. -/
theorem c2_counterexample :
    ((get_recommended_playlist_for_user "user@example.com" (some c2Entry) c2Catalog 6).length : ℤ)
        = 2 ∧
      min (6 : ℤ) (specAvailableSum c2Entry.categories c2Catalog) = 3 ∧
      ((get_recommended_playlist_for_user "user@example.com" (some c2Entry) c2Catalog 6).length : ℤ)
        ≠ min (6 : ℤ) (specAvailableSum c2Entry.categories c2Catalog) := by
  have hq : ((9 : ℚ) / 10) * ((6 : ℤ) : ℚ) = 27 / 5 := by norm_num
  have hf : ⌊(27 / 5 : ℚ)⌋ = 5 := by
    rw [Int.floor_eq_iff]
    constructor <;> norm_num
  have hr : pyRound ((9 / 10 : ℚ) * ((6 : ℤ) : ℚ)) = 5 := by
    rw [hq]
    unfold pyRound
    rw [hf]
    rw [if_pos (by norm_num)]
  have hnorm : normRanked c2Entry.categories c2Catalog
      = [("Classical", (9 : ℚ) / 10), ("Rock", (1 : ℚ) / 10)] := by
    simp only [normRanked, c2Entry, c2Catalog, catHas]
    norm_num
  have halloc : allocGo 6 [("Classical", (9 : ℚ) / 10), ("Rock", (1 : ℚ) / 10)] 6
      = [("Classical", 5), ("Rock", 1)] := by
    simp only [allocGo, List.isEmpty_cons, List.isEmpty_nil, hr]
    norm_num
  have hcatC : catGet c2Catalog "Classical" = [⟨"c0", "Classical"⟩] := by
    simp [catGet, c2Catalog]
  have hcatR : catGet c2Catalog "Rock" = [⟨"r0", "Rock"⟩, ⟨"r1", "Rock"⟩] := by
    simp [catGet, c2Catalog]
  have hplay : playlistGo 6 c2Catalog [("Classical", 5), ("Rock", 1)] []
      = [⟨"c0", "Classical"⟩, ⟨"r0", "Rock"⟩] := by
    simp only [playlistGo, hcatC, hcatR, pyTake]
    norm_num [addTracks]
  have hlen : ((get_recommended_playlist_for_user "user@example.com" (some c2Entry)
      c2Catalog 6).length : ℤ) = 2 := by
    unfold get_recommended_playlist_for_user
    rw [if_neg (by simp)]
    have hemp : c2Entry.categories.isEmpty = false := by simp [c2Entry]
    simp only [hemp, Bool.false_eq_true, if_false]
    rw [hnorm, halloc, hplay]
    simp
  have hhC : catHas c2Catalog "Classical" = true := by simp [catHas, c2Catalog]
  have hhR : catHas c2Catalog "Rock" = true := by simp [catHas, c2Catalog]
  have hspec : specAvailableSum c2Entry.categories c2Catalog = 3 := by
    simp only [specAvailableSum, c2Entry, hhC, hhR, List.filter_cons, List.filter_nil,
      if_pos, List.map_cons, List.map_nil, List.sum_cons, List.sum_nil, hcatC, hcatR]
    norm_num
  refine ⟨hlen, ?_, ?_⟩
  · rw [hspec]
    exact min_eq_right (by norm_num)
  · rw [hlen, hspec]
    have h63 : min (6 : ℤ) 3 = 3 := min_eq_right (by norm_num)
    rw [h63]
    norm_num

/-- C9: If the classifier's `predict` or `predict_proba` call raises an
exception during `run_predictions_on_uploaded_data`, the exception is
caught and surfaced as a user-visible error, and the stored processed
batch — including any previously computed predictions — is left
unchanged: the `processed_eeg_data` state after the call is exactly the
input dataframe, because the state assignment happens only after both
calls succeed. -/
theorem c9_prediction_failure_leaves_state_unchanged (m : Model) (df : DF)
    (patientId : String) (ddbPut : Except String Bool)
    (hrows : ¬ df.nrows = 0) (hcols : (usedColsOf df).isEmpty = false) :
    (∀ e : String, m.predictRes = .error e →
      run_predictions_on_uploaded_data (some m) (some df) patientId ddbPut
        = (some df, .errored e)) ∧
      (∀ (e : String) (ys : List ℤ), m.predictRes = .ok ys →
        m.probaRes = some (.error e) →
        run_predictions_on_uploaded_data (some m) (some df) patientId ddbPut
          = (some df, .errored e)) := by
  constructor
  · intro e he
    simp only [run_predictions_on_uploaded_data, if_neg hrows, hcols, Bool.false_eq_true,
      if_false, he]
  · intro e ys hok hproba
    simp only [run_predictions_on_uploaded_data, if_neg hrows, hcols, Bool.false_eq_true,
      if_false, hok, hproba]

/-- Dataframe for the C9 witness: one numeric feature column, one row. -/
def c9DF : DF := ⟨["Beta_TP9_mean"], fun _ => true, 1⟩

/-- Model for the C9 witness: `predict` raises. -/
def c9Model : Model := ⟨.error "boom", none, none⟩

theorem c9_witness :
    (¬ c9DF.nrows = 0 ∧ (usedColsOf c9DF).isEmpty = false ∧
        c9Model.predictRes = .error "boom") ∧
      run_predictions_on_uploaded_data (some c9Model) (some c9DF) "p@x" (.ok true)
        = (some c9DF, .errored "boom") :=
  ⟨⟨by decide, by decide, rfl⟩,
    (c9_prediction_failure_leaves_state_unchanged c9Model c9DF "p@x" (.ok true)
      (by decide) (by decide)).1 "boom" rfl⟩

end NeuroHarmony
